import Mathlib

/-!
Verification of the MRHS-solver core (`src/mrhs.c`) against its
natural-language specification.

Shallow embedding conventions:

* a C `_block` (machine word used as a packed GF(2) row of width `ncols`)
  is a `Nat`; bit `c` of the word is `Nat.testBit w c`;
* a C `_bv` (bit vector of logical length `n`) is a `Nat` whose bit `r`
  is the vector's entry `r`;
* a C `_bm` (bit matrix) is the structure `BM` below: the `rows` list
  holds one word per matrix row, parallel to the `nrows`/`ncols` header
  fields of the C struct;
* the parallel `pM`/`pS` arrays of `MRHS_system` (allocated together and
  both `NULL` exactly when the other is) are one optional list of
  `(Mᵢ, Sᵢ)` pairs; `none` models the `NULL` pointers;
* randomness (`rand()`, `random_bv`, …) is passed in explicitly: the
  random draws become parameters of the embedded function, so theorems
  quantify over every possible draw;
* a C function whose execution would dereference a null pointer or read
  out of an allocated array returns `none` (`Option` result) at exactly
  that point.
-/

/-- Embeds the C struct `_bm` (packed bit matrix): `nrows × ncols`,
each row one machine word, `ncols ≤` word width.  `rows` is the row
array; the `nrows`, `ncols` fields mirror the C header fields. -/
structure BM where
  nrows : Nat
  ncols : Nat
  rows  : List Nat
deriving DecidableEq

instance : Inhabited BM := ⟨⟨0, 0, []⟩⟩

/-- Modelled from the spec: `create(nrows, ncols)` returns a
zero-initialized bit matrix (`create_bm` of `mrhs.bm.h`, not in src). -/
def create_bm (nrows ncols : Nat) : BM :=
  ⟨nrows, ncols, List.replicate nrows 0⟩

/-- Modelled from the spec: `get_bit` bitwise primitive of the bit
matrix (`get_bit_bm`, not in src): the bit of row `r` at column `c`.
The C version returns the word `ONE` or `ZERO`; we return the bit as a
`Bool`, so the C comparison `== ONE` is the `Bool` itself. -/
def get_bit_bm (bm : BM) (r c : Nat) : Bool :=
  (bm.rows.getD r 0).testBit c

/-- Embeds the C struct `MRHS_system`: parallel arrays `pM`, `pS` of
`nblocks` bit matrices.  The two arrays are merged into one list of
pairs ordered by block; `none` models `pM = pS = NULL`. -/
structure MRHS_system where
  nblocks : Nat
  blocks  : Option (List (BM × BM))
deriving DecidableEq

/-- Embeds `create_mrhs_variable` (mrhs.c ll. 32–54): zero blocks give
the empty system with null arrays; otherwise block `i` gets
`Mᵢ = create_bm nrows blocksizes[i]` and
`Sᵢ = create_bm rhscounts[i] blocksizes[i]`.  C array indexing is
`List.getD · · 0`. -/
def create_mrhs_variable (nrows nblocks : Nat)
    (blocksizes rhscounts : List Nat) : MRHS_system :=
  if nblocks = 0 then ⟨0, none⟩
  else
    ⟨nblocks, some ((List.range nblocks).map (fun b =>
      (create_bm nrows (blocksizes.getD b 0),
       create_bm (rhscounts.getD b 0) (blocksizes.getD b 0))))⟩

/-- Embeds `create_mrhs_fixed` (mrhs.c ll. 17–29): builds the two
constant parameter arrays by a loop over the blocks and delegates to
`create_mrhs_variable`. -/
def create_mrhs_fixed (nrows nblocks blocksize rhscount : Nat) : MRHS_system :=
  create_mrhs_variable nrows nblocks
    ((List.range nblocks).map (fun _ => blocksize))
    ((List.range nblocks).map (fun _ => rhscount))

/-- Modelled from the spec: lowest set bit of a nonzero word
(helper for `find_nonzero` of `mrhs.bv.h`, not in src). -/
def lowBit (v : Nat) : Nat :=
  if h : v = 0 then 0
  else if v % 2 = 1 then 0
  else lowBit (v / 2) + 1
termination_by v
decreasing_by exact Nat.div_lt_self (Nat.pos_of_ne_zero h) (by norm_num)

/-- Modelled from the spec: `find_nonzero(bv, start)` returns the
smallest index `≥ start` whose bit is 1, or −1 (`none` here) when
there is none (`find_nonzero` of `mrhs.bv.h`, not in src). -/
def find_nonzero (v start : Nat) : Option Nat :=
  if v >>> start = 0 then none else some (start + lowBit (v >>> start))

/-- Modelled from the spec: row-array part of `add_column` — XOR the
bit-vector `cv` into column `col`, one bit per row (`add_column_bm` of
`mrhs.bm.h`, not in src).  Bit `r` of `cv` belongs to row `r`; the head
of the list is row 0, so the vector is halved at each step. -/
def add_column_rows (col : Nat) : Nat → List Nat → List Nat
  | _, [] => []
  | cv, w :: ws =>
      (if cv % 2 = 1 then w ^^^ (1 <<< col) else w) :: add_column_rows col (cv / 2) ws

/-- Modelled from the spec: `add_column` on a bit matrix. -/
def add_column_bm (bm : BM) (cv : Nat) (col : Nat) : BM :=
  ⟨bm.nrows, bm.ncols, add_column_rows col cv bm.rows⟩

/-- Modelled from the spec: `add_constant_bm` — XOR the single-bit
constant `rhs` into every row of column `col` (not in src; the call
site mrhs.c l. 443 adds the scalar rhs to the matching column of S). -/
def add_constant_bm (bm : BM) (rhs : Bool) (col : Nat) : BM :=
  ⟨bm.nrows, bm.ncols, bm.rows.map (fun w => if rhs then w ^^^ (1 <<< col) else w)⟩

/-- Modelled from the spec: value of the bit vector extracted by
`get_column` — bit `r` is the bit of row `r` at column `col`
(`get_column_bm` of `mrhs.bm.h`, not in src). -/
def get_column_rows (col : Nat) : List Nat → Nat
  | [] => 0
  | w :: ws => (if w.testBit col then 1 else 0) + 2 * get_column_rows col ws

/-- Modelled from the spec: `get_column` on a bit matrix. -/
def get_column_bm (bm : BM) (col : Nat) : Nat :=
  get_column_rows col bm.rows

/-- Modelled from the spec: value of the bit vector returned by
`get_active_rows` — bit `r` is set iff row `r` contains any 1
(`get_active_rows_bm` of `mrhs.bm.h`, not in src). -/
def active_rows_val : List Nat → Nat
  | [] => 0
  | w :: ws => (if w ≠ 0 then 1 else 0) + 2 * active_rows_val ws

/-- Modelled from the spec: `get_active_rows` on a bit matrix. -/
def get_active_rows_bm (bm : BM) : Nat :=
  active_rows_val bm.rows

/-- Modelled from the spec: `is_non_zero_bv` (not in src). -/
def is_non_zero_bv (v : Nat) : Bool :=
  decide (v ≠ 0)

/-- Modelled from the spec: row-array part of `remove_rows` — keep only
the rows whose mask bit is 1 and renumber (`remove_rows_bm` of
`mrhs.bm.h`, not in src). -/
def remove_rows_list : List Nat → Nat → List Nat
  | [], _ => []
  | w :: ws, mask =>
      if mask % 2 = 1 then w :: remove_rows_list ws (mask / 2)
      else remove_rows_list ws (mask / 2)

/-- Modelled from the spec: `remove_rows` on a bit matrix; the spec says
the surviving rows are renumbered, so `nrows` becomes their count. -/
def remove_rows_bm (bm : BM) (mask : Nat) : BM :=
  ⟨(remove_rows_list bm.rows mask).length, bm.ncols, remove_rows_list bm.rows mask⟩

/-- Modelled from the spec: vector–matrix product `x·M` over GF(2) —
the XOR of the rows of `M` selected by the bits of `x`
(`multiply_bv_x_bm` of `mrhs.bv.h`, not in src). -/
def mul_rows : Nat → List Nat → Nat
  | _, [] => 0
  | sv, w :: ws => (if sv % 2 = 1 then w else 0) ^^^ mul_rows (sv / 2) ws

/-- Modelled from the spec: `multiply_bv_x_bm`. -/
def multiply_bv_x_bm (sol : Nat) (bm : BM) : Nat :=
  mul_rows sol bm.rows

/-- Modelled from the spec: `ensure_block_in(bm, v)` — if `v` is not
already a row of `bm`, overwrite a uniformly chosen row with `v`
(`ensure_block_in_bm` of `mrhs.bm.h`, not in src).  The random draw is
the explicit parameter `choice`; the chosen row is `choice % nrows` as
with C's `rand() % nrows`. -/
def ensure_block_in_bm (bm : BM) (v : Nat) (choice : Nat) : BM :=
  if v ∈ bm.rows then bm
  else ⟨bm.nrows, bm.ncols, bm.rows.set (choice % bm.nrows) v⟩

/-- Block loop of `ensure_random_solution` (mrhs.c ll. 175–182): for
each block compute `rhs = x·Mᵢ` and ensure it appears in `Sᵢ`.  `i` is
the block counter feeding the per-block random draw `choice i`. -/
def ensure_loop (sol : Nat) (choice : Nat → Nat) : List (BM × BM) → Nat → List (BM × BM)
  | [], _ => []
  | p :: rest, i =>
      (p.1, ensure_block_in_bm p.2 (multiply_bv_x_bm sol p.1) (choice i)) ::
        ensure_loop sol choice rest (i + 1)

/-- Embeds `ensure_random_solution` (mrhs.c ll. 167–184).  The random
vector `x` drawn by `random_bv` is the parameter `sol`; the per-block
row draws of `ensure_block_in_bm` are `choice`. -/
def ensure_random_solution (sol : Nat) (choice : Nat → Nat) (sys : MRHS_system) : MRHS_system :=
  if sys.nblocks < 1 then sys
  else
    match sys.blocks with
    | none => sys
    | some bs => ⟨sys.nblocks, some (ensure_loop sol choice bs 0)⟩

/-- Column loop of `linear_substitution` (mrhs.c ll. 433–447) for one
block: for each column whose bit at the pivot row is 1 (checked on the
current state, as in C), add the vector `c` into that column of M, XOR
`rhs` into that column of S, and count the substitution. -/
def subst_cols (c : Nat) (rhs : Bool) (p : Nat) :
    List Nat → BM × BM × Nat → BM × BM × Nat
  | [], acc => acc
  | col :: cols, (m, s, cnt) =>
      if get_bit_bm m p col then
        subst_cols c rhs p cols (add_column_bm m c col, add_constant_bm s rhs col, cnt + 1)
      else
        subst_cols c rhs p cols (m, s, cnt)

/-- One block of `linear_substitution`: the column loop over
`0 ≤ col < Mᵢ.ncols`. -/
def subst_block (pr : BM × BM) (c : Nat) (rhs : Bool) (p : Nat) : BM × BM × Nat :=
  subst_cols c rhs p (List.range pr.1.ncols) (pr.1, pr.2, 0)

/-- Embeds `linear_substitution` (mrhs.c ll. 426–449): pivot = first
nonzero entry of `column` (return 0 and leave the system unchanged when
there is none, C's `pivot < 0`), then the per-block column loop; the
result pairs the rewritten system with the substitution count. -/
def linear_substitution (sys : MRHS_system) (column : Nat) (rhs : Bool) : MRHS_system × Nat :=
  match find_nonzero column 0 with
  | none => (sys, 0)
  | some p =>
      match sys.blocks with
      | none => (sys, 0)
      | some bs =>
          (⟨sys.nblocks, some (bs.map (fun pr =>
              ((subst_block pr column rhs p).1, (subst_block pr column rhs p).2.1)))⟩,
           (bs.map (fun pr => (subst_block pr column rhs p).2.2)).sum)

/-- The `Mᵢ` of block `b` of a system (C's `system->pM[block]`). -/
def sys_M (sys : MRHS_system) (b : Nat) : BM :=
  ((sys.blocks.getD []).getD b default).1

/-- The `Sᵢ` of block `b` of a system (C's `system->pS[block]`). -/
def sys_S (sys : MRHS_system) (b : Nat) : BM :=
  ((sys.blocks.getD []).getD b default).2

/-- Embeds `remove_linear` (mrhs.c ll. 452–469): for every block whose
`Sᵢ` has exactly one row, extract each column of `Mᵢ` together with the
matching bit of `Sᵢ[0]` (both read from the current, already rewritten
system, as in C) and substitute it into the whole system, accumulating
the substitution count. -/
def remove_linear (sys : MRHS_system) : MRHS_system × Nat :=
  (List.range sys.nblocks).foldl (fun acc b =>
    if (sys_S acc.1 b).nrows = 1 then
      (List.range (sys_M acc.1 b).ncols).foldl (fun acc2 col =>
        let c := get_column_bm (sys_M acc2.1 b) col
        let rhs := get_bit_bm (sys_S acc2.1 b) 0 col
        let r := linear_substitution acc2.1 c rhs
        (r.1, acc2.2 + r.2)) acc
    else acc) (sys, 0)

/-- Block scan of `remove_empty` (mrhs.c ll. 476–497): keep the blocks
whose `Mᵢ` has an active row, OR their active-row vectors into the
system-wide mask, and drop the rest (C shifts the later blocks down in
place, which keeps their relative order). -/
def remove_empty_loop : List (BM × BM) → Nat → List (BM × BM) × Nat
  | [], mask => ([], mask)
  | p :: rest, mask =>
      if is_non_zero_bv (get_active_rows_bm p.1) then
        let r := remove_empty_loop rest (mask ||| get_active_rows_bm p.1)
        (p :: r.1, r.2)
      else
        remove_empty_loop rest mask

/-- Embeds `remove_empty` (mrhs.c ll. 471–504).  The first statement of
the C body evaluates `system->pM->nrows`; on a system with null arrays
this dereferences the null pointer, which the embedding marks as
`none`.  Otherwise: scan the blocks, drop the empty ones, compact every
surviving `Mᵢ` to the rows of the accumulated active mask, and return
the number of removed blocks. -/
def remove_empty (sys : MRHS_system) : Option (MRHS_system × Nat) :=
  match sys.blocks with
  | none => none
  | some bs =>
      let r := remove_empty_loop bs 0
      let kept := r.1.map (fun p => (remove_rows_bm p.1 r.2, p.2))
      some (⟨sys.nblocks - (bs.length - r.1.length), some kept⟩, bs.length - r.1.length)

/-- Combined active-row mask of a block list (the value the scan of
`remove_empty` accumulates, empty blocks contributing zero). -/
def or_actives : List (BM × BM) → Nat
  | [] => 0
  | p :: rest => get_active_rows_bm p.1 ||| or_actives rest

/-- Body loop of `fill_mrhs_and` (mrhs.c ll. 116–125): the first
`m − l` blocks get AND-gate columns with output row `k + block`, the
remaining `l` filter blocks get dense random columns; every `Sᵢ` gets
the AND truth table.  The PRNG-backed fillers `random_and_cols_bm`,
`random_bm`, `random_and_bm` (not in src) are the oracle parameters
`fA`, `fR`, `fS`. -/
def fill_and_list (fA : Int → BM → BM) (fR : BM → BM) (fS : BM → BM) (k cut : Int) :
    List (BM × BM) → Int → List (BM × BM)
  | [], _ => []
  | p :: rest, i =>
      (if i < cut then (fA (k + i) p.1, fS p.2) else (fR p.1, fS p.2)) ::
        fill_and_list fA fR fS k cut rest (i + 1)

/-- Embeds `fill_mrhs_and` (mrhs.c ll. 110–126): refuse silently
(`some sys`, no mutation) when `l > m`, `l < 0` or
`k + m − l ≠ pM->nrows`; note the last disjunct dereferences `pM[0]`
(`none` when the arrays are null or empty), short-circuited after the
first two as in C. -/
def fill_mrhs_and (fA : Int → BM → BM) (fR : BM → BM) (fS : BM → BM)
    (sys : MRHS_system) (k l : Int) : Option MRHS_system :=
  if l > (sys.nblocks : Int) ∨ l < 0 then some sys
  else
    match sys.blocks with
    | none => none
    | some bs =>
        match bs.head? with
        | none => none
        | some b0 =>
            if k + (sys.nblocks : Int) - l ≠ (b0.1.nrows : Int) then some sys
            else some ⟨sys.nblocks,
              some (fill_and_list fA fR fS k ((sys.nblocks : Int) - l) bs 0)⟩

/-- Body loop of `fill_mrhs_and_sparse` (mrhs.c ll. 144–148): every
block gets sparse AND columns with output row `k + block` and density
`d`; every `Sᵢ` gets the AND truth table.  `fAS`, `fS` are the oracle
parameters for the PRNG-backed fillers (not in src). -/
def fill_sparse_list (fAS : Int → Int → BM → BM) (fS : BM → BM) (k d : Int) :
    List (BM × BM) → Int → List (BM × BM)
  | [], _ => []
  | p :: rest, i =>
      (fAS (k + i) d p.1, fS p.2) :: fill_sparse_list fAS fS k d rest (i + 1)

/-- Embeds `fill_mrhs_and_sparse` (mrhs.c ll. 138–149): same guard as
`fill_mrhs_and`, then the sparse body loop. -/
def fill_mrhs_and_sparse (fAS : Int → Int → BM → BM) (fS : BM → BM)
    (sys : MRHS_system) (k l d : Int) : Option MRHS_system :=
  if l > (sys.nblocks : Int) ∨ l < 0 then some sys
  else
    match sys.blocks with
    | none => none
    | some bs =>
        match bs.head? with
        | none => none
        | some b0 =>
            if k + (sys.nblocks : Int) - l ≠ (b0.1.nrows : Int) then some sys
            else some ⟨sys.nblocks, some (fill_sparse_list fAS fS k d bs 0)⟩

/-- Embeds the header phase of `read_mrhs_variable` (mrhs.c
ll. 191–211): the stream of integers consumed by `fscanf("%i")` is
`toks`.  After `n` and `m`, each block contributes two integers, the
FIRST stored into `l[block]` (passed to `create_mrhs_variable` as the
blocksize) and the SECOND into `k[block]` (the rhs count), mrhs.c
ll. 204–205.  A missing integer leaves the `calloc`-initialized 0, as
reading past the stream does here via `List.getD · · 0`. -/
def read_mrhs_header (toks : List Nat) : MRHS_system :=
  match toks with
  | n :: m :: rest =>
      create_mrhs_variable n m
        ((List.range m).map (fun b => rest.getD (2 * b) 0))
        ((List.range m).map (fun b => rest.getD (2 * b + 1) 0))
  | [n] => create_mrhs_variable n 0 [] []
  | [] => create_mrhs_variable 0 0 [] []

/-- Modelled from the claim under test (C9): the same header phase but
with the per-block pair consumed in the order `kᵢ` then `lᵢ` — the
first integer of each pair taken as the rhs count and the second as the
blocksize.  Compared against `read_mrhs_header`, which embeds the
source. -/
def read_mrhs_header_swapped (toks : List Nat) : MRHS_system :=
  match toks with
  | n :: m :: rest =>
      create_mrhs_variable n m
        ((List.range m).map (fun b => rest.getD (2 * b + 1) 0))
        ((List.range m).map (fun b => rest.getD (2 * b) 0))
  | [n] => create_mrhs_variable n 0 [] []
  | [] => create_mrhs_variable 0 0 [] []

/-- Per-block header integers emitted by `write_mrhs_variable`
(mrhs.c ll. 262–265): `Sᵢ.ncols` then `Sᵢ.nrows` for each block. -/
def header_pairs : List (BM × BM) → List Nat
  | [] => []
  | p :: rest => p.2.ncols :: p.2.nrows :: header_pairs rest

/-- Embeds the header phase of `write_mrhs_variable` (mrhs.c
ll. 250–265): nothing is written for an empty system; otherwise the
stream of integers is `nrows`, `nblocks`, then the per-block pairs.
Reading `pM[0].nrows` through a null or empty array is `none`. -/
def write_mrhs_header (sys : MRHS_system) : Option (List Nat) :=
  if sys.nblocks = 0 then some []
  else
    match sys.blocks with
    | none => none
    | some bs =>
        match bs.head? with
        | none => none
        | some b0 => some (b0.1.nrows :: sys.nblocks :: header_pairs bs)

/-- A matrix column is zero at `j` in block `b` of a system: every row
bit of `Mᵦ` at column `j` is clear. -/
def zero_col (sys : MRHS_system) (b j : Nat) : Prop :=
  ∀ r, get_bit_bm (sys_M sys b) r j = false

/-- Shape equality of two bit matrices: same header fields and same row
count of the underlying array. -/
def shape_eq (a b : BM) : Prop :=
  a.nrows = b.nrows ∧ a.ncols = b.ncols ∧ a.rows.length = b.rows.length

/-- Invariant carried through the loops of `remove_linear`: the system
still has non-null arrays of the original length and block count, and
every block still has the shapes it started with. -/
def sys_good (bs0 : List (BM × BM)) (nb : Nat) (s : MRHS_system) : Prop :=
  ∃ cs, s.blocks = some cs ∧ cs.length = bs0.length ∧ s.nblocks = nb ∧
    ∀ i < bs0.length,
      shape_eq (cs.getD i default).1 (bs0.getD i default).1 ∧
      shape_eq (cs.getD i default).2 (bs0.getD i default).2

/-- Indexing a `List.range`-built map below the length. -/
theorem range_map_getD {α : Type} (n i : Nat) (f : Nat → α) (d : α)
    (h : i < n) : (((List.range n).map f).getD i d) = f i := by
  rw [List.getD_eq_getElem?_getD, List.getElem?_map]
  simp [List.getElem?_range h]

/-- C7: for every `n ≥ 0`, `nblocks ≥ 1` and parameter arrays, block `i`
of `create_mrhs_variable n nblocks l k` satisfies `Mᵢ.nrows = n`,
`Mᵢ.ncols = lᵢ`, `Sᵢ.ncols = lᵢ`, `Sᵢ.nrows = kᵢ`. -/
theorem create_mrhs_variable_shapes (n nblocks : Nat)
    (ls ks : List Nat) (i : Nat) (hn : 1 ≤ nblocks) (hi : i < nblocks) :
    ∃ bs, (create_mrhs_variable n nblocks ls ks).blocks = some bs ∧
      bs.length = nblocks ∧
      (bs.getD i default).1.nrows = n ∧
      (bs.getD i default).1.ncols = ls.getD i 0 ∧
      (bs.getD i default).2.ncols = ls.getD i 0 ∧
      (bs.getD i default).2.nrows = ks.getD i 0 := by
  refine ⟨(List.range nblocks).map (fun b =>
      (create_bm n (ls.getD b 0),
       create_bm (ks.getD b 0) (ls.getD b 0))), ?_, by simp, ?_⟩
  · unfold create_mrhs_variable
    rw [if_neg (by omega)]
  · rw [range_map_getD nblocks i _ default hi]
    exact ⟨rfl, rfl, rfl, rfl⟩

/-- Witness for C7 at a concrete input. -/
theorem create_mrhs_variable_shapes_witness :
    ∃ bs, (create_mrhs_variable 3 2 [2, 1] [4, 1]).blocks = some bs ∧
      bs.length = 2 ∧
      (bs.getD 1 default).1.nrows = 3 ∧
      (bs.getD 1 default).1.ncols = [2, 1].getD 1 0 ∧
      (bs.getD 1 default).2.ncols = [2, 1].getD 1 0 ∧
      (bs.getD 1 default).2.nrows = [4, 1].getD 1 0 :=
  create_mrhs_variable_shapes 3 2 [2, 1] [4, 1] 1 (by decide) (by decide)

/-- C8: `create_mrhs_variable` with `nblocks = 0` returns the empty
system: `nblocks = 0` and null `pM`/`pS` arrays (modelled as `none`). -/
theorem create_mrhs_variable_zero_blocks (n : Nat) (ls ks : List Nat) :
    create_mrhs_variable n 0 ls ks = ⟨0, none⟩ := by
  unfold create_mrhs_variable
  rw [if_pos rfl]

/-- C10: `create_mrhs_fixed n m l k` equals `create_mrhs_variable` on
the constant arrays of `m` copies of `l` and of `k`. -/
theorem create_mrhs_fixed_eq_variable (n m l k : Nat) :
    create_mrhs_fixed n m l k =
      create_mrhs_variable n m (List.replicate m l) (List.replicate m k) := by
  unfold create_mrhs_fixed create_mrhs_variable
  by_cases hm : m = 0
  · rw [if_pos hm, if_pos hm]
  · rw [if_neg hm, if_neg hm]
    have harr : ∀ b ∈ List.range m,
        ((List.range m).map (fun _ => l)).getD b 0 = (List.replicate m l).getD b 0 ∧
        ((List.range m).map (fun _ => k)).getD b 0 = (List.replicate m k).getD b 0 := by
      intro b hb
      rw [List.mem_range] at hb
      constructor
      · rw [range_map_getD m b _ 0 hb, List.getD_eq_getElem?_getD,
          List.getElem?_replicate, if_pos hb]
        rfl
      · rw [range_map_getD m b _ 0 hb, List.getD_eq_getElem?_getD,
          List.getElem?_replicate, if_pos hb]
        rfl

    congr 1
    congr 1
    apply List.map_congr_left
    intro b hb
    rw [(harr b hb).1, (harr b hb).2]

/-! Bit-level helper lemmas. -/

/-- XOR with a one-hot word flips exactly the selected bit. -/
theorem testBit_xor_one_shift (w col j : Nat) :
    (w ^^^ (1 <<< col)).testBit j = Bool.xor (w.testBit j) (decide (j = col)) := by
  rw [Nat.testBit_xor, Nat.one_shiftLeft, Nat.testBit_two_pow]
  cases h : w.testBit j <;> simp [eq_comm]

/-- Reading past the row array gives a clear bit. -/
theorem get_bit_bm_oob (m : BM) (r j : Nat) (h : m.rows.length ≤ r) :
    get_bit_bm m r j = false := by
  unfold get_bit_bm
  rw [List.getD_eq_default _ _ h]
  exact Nat.zero_testBit j

/-- Length preservation of the `add_column` row rewrite. -/
theorem add_column_rows_length (col : Nat) :
    ∀ (cv : Nat) (ws : List Nat), (add_column_rows col cv ws).length = ws.length := by
  intro cv ws
  induction ws generalizing cv with
  | nil => rfl
  | cons w ws ih => simpa [add_column_rows] using ih (cv / 2)

/-- Pointwise description of the `add_column` row rewrite. -/
theorem add_column_rows_getD (col : Nat) :
    ∀ (ws : List Nat) (cv r : Nat),
      (add_column_rows col cv ws).getD r 0 =
        if r < ws.length then
          (if cv.testBit r then (ws.getD r 0) ^^^ (1 <<< col) else ws.getD r 0)
        else 0 := by
  intro ws
  induction ws with
  | nil => intro cv r; simp [add_column_rows]
  | cons w ws ih =>
      intro cv r
      cases r with
      | zero => simp [add_column_rows, Nat.testBit_zero]
      | succ r =>
          have := ih (cv / 2) r
          simp only [add_column_rows, List.getD_cons_succ, List.length_cons]
          rw [this, Nat.testBit_succ]
          simp only [Nat.add_lt_add_iff_right]

/-- Bit-level description of `add_column_bm`: exactly column `col` of
the existing rows changes, by the matching bit of `cv`. -/
theorem get_bit_add_column (m : BM) (cv col r j : Nat) :
    get_bit_bm (add_column_bm m cv col) r j =
      Bool.xor (get_bit_bm m r j)
        (decide (j = col) && (decide (r < m.rows.length) && cv.testBit r)) := by
  show ((add_column_rows col cv m.rows).getD r 0).testBit j = _
  rw [add_column_rows_getD]
  by_cases hr : r < m.rows.length
  · rw [if_pos hr]
    by_cases hbit : cv.testBit r
    · rw [if_pos hbit, testBit_xor_one_shift]
      simp [get_bit_bm, hr, hbit]
    · rw [if_neg hbit]
      simp [get_bit_bm, hbit]
  · rw [if_neg hr]
    have : get_bit_bm m r j = false := get_bit_bm_oob m r j (by omega)
    simp [this, hr, Nat.zero_testBit]

/-- Pointwise reading of a mapped row list with default 0. -/
theorem map_rows_getD (f : Nat → Nat) (ws : List Nat) (r : Nat) :
    (ws.map f).getD r 0 = if r < ws.length then f (ws.getD r 0) else 0 := by
  induction ws generalizing r with
  | nil => simp
  | cons w ws ih =>
      cases r with
      | zero => simp
      | succ r =>
          simp only [List.map_cons, List.getD_cons_succ, List.length_cons,
            ih r, Nat.add_lt_add_iff_right]

/-- Bit-level description of `add_constant_bm`: exactly column `col` of
the existing rows changes, by the constant `rhs`. -/
theorem get_bit_add_constant (s : BM) (rhs : Bool) (col r j : Nat) :
    get_bit_bm (add_constant_bm s rhs col) r j =
      Bool.xor (get_bit_bm s r j)
        (decide (j = col) && (decide (r < s.rows.length) && rhs)) := by
  show ((s.rows.map _).getD r 0).testBit j = _
  rw [map_rows_getD]
  by_cases hr : r < s.rows.length
  · rw [if_pos hr]
    cases rhs with
    | false => simp [get_bit_bm]
    | true =>
        rw [if_pos rfl, testBit_xor_one_shift]
        simp [get_bit_bm, hr]
  · rw [if_neg hr]
    have : get_bit_bm s r j = false := get_bit_bm_oob s r j (by omega)
    simp [this, hr, Nat.zero_testBit]

/-- Bit `r` of the extracted column is the matrix bit at `(r, col)`. -/
theorem get_column_rows_testBit (col : Nat) :
    ∀ (ws : List Nat) (r : Nat),
      (get_column_rows col ws).testBit r =
        if r < ws.length then (ws.getD r 0).testBit col else false := by
  intro ws
  induction ws with
  | nil => intro r; simp [get_column_rows, Nat.zero_testBit]
  | cons w ws ih =>
      intro r
      cases r with
      | zero =>
          simp only [get_column_rows, Nat.testBit_zero, List.getD_cons_zero,
            List.length_cons, if_pos (Nat.succ_pos ws.length)]
          cases h : w.testBit col <;>
            simp [h, Nat.add_mul_mod_self_left]
      | succ r =>
          have h2 : ((if w.testBit col then 1 else 0) + 2 * get_column_rows col ws) / 2 =
              get_column_rows col ws := by
            cases h : w.testBit col <;> simp [h, Nat.add_mul_div_left]
          simp only [get_column_rows, Nat.testBit_succ, h2, ih r,
            List.getD_cons_succ, List.length_cons, Nat.add_lt_add_iff_right]

/-- A column reads as the zero vector iff every row bit at it is clear. -/
theorem get_column_rows_eq_zero (col : Nat) (ws : List Nat) :
    get_column_rows col ws = 0 ↔ ∀ r, (ws.getD r 0).testBit col = false := by
  constructor
  · intro h r
    by_cases hr : r < ws.length
    · have := get_column_rows_testBit col ws r
      rw [h, Nat.zero_testBit, if_pos hr] at this
      exact this.symm
    · rw [List.getD_eq_default _ _ (by omega)]
      exact Nat.zero_testBit col
  · intro h
    refine Nat.eq_of_testBit_eq (fun r => ?_)
    rw [get_column_rows_testBit, Nat.zero_testBit]
    by_cases hr : r < ws.length
    · rw [if_pos hr]; exact h r
    · rw [if_neg hr]

/-- The lowest set bit of a nonzero word is set. -/
theorem lowBit_testBit (v : Nat) (hv : v ≠ 0) : v.testBit (lowBit v) = true := by
  induction v using Nat.strong_induction_on with
  | _ v ih =>
      unfold lowBit
      rw [dif_neg hv]
      by_cases h2 : v % 2 = 1
      · rw [if_pos h2]
        simp [Nat.testBit_zero, h2]
      · rw [if_neg h2]
        have hhalf : v / 2 ≠ 0 := by omega
        have := ih (v / 2) (Nat.div_lt_self (Nat.pos_of_ne_zero hv) (by norm_num)) hhalf
        rw [Nat.testBit_succ]
        exact this

/-- Bits below the lowest set bit are clear. -/
theorem lowBit_min (v : Nat) : ∀ i, i < lowBit v → v.testBit i = false := by
  induction v using Nat.strong_induction_on with
  | _ v ih =>
      intro i hi
      by_cases hv : v = 0
      · subst hv; exact Nat.zero_testBit i
      · unfold lowBit at hi
        rw [dif_neg hv] at hi
        by_cases h2 : v % 2 = 1
        · rw [if_pos h2] at hi; omega
        · rw [if_neg h2] at hi
          cases i with
          | zero => simp [Nat.testBit_zero, h2]
          | succ i =>
              rw [Nat.testBit_succ]
              exact ih (v / 2) (Nat.div_lt_self (Nat.pos_of_ne_zero hv) (by norm_num)) i
                (by omega)

/-- `find_nonzero` from index 0 on the zero vector finds nothing. -/
theorem find_nonzero_zero : find_nonzero 0 0 = none := rfl

/-- `find_nonzero` from index 0 on a nonzero vector is its lowest set
bit. -/
theorem find_nonzero_some (v : Nat) (hv : v ≠ 0) :
    find_nonzero v 0 = some (lowBit v) := by
  unfold find_nonzero
  rw [Nat.shiftRight_zero, if_neg hv, Nat.zero_add]

/-- Bit `r` of the active-row vector says whether row `r` is nonzero. -/
theorem active_rows_val_testBit :
    ∀ (ws : List Nat) (r : Nat),
      (active_rows_val ws).testBit r =
        if r < ws.length then decide (ws.getD r 0 ≠ 0) else false := by
  intro ws
  induction ws with
  | nil => intro r; simp [active_rows_val, Nat.zero_testBit]
  | cons w ws ih =>
      intro r
      cases r with
      | zero =>
          simp only [active_rows_val, Nat.testBit_zero, List.getD_cons_zero,
            List.length_cons, if_pos (Nat.succ_pos ws.length)]
          by_cases h : w = 0 <;> simp [h, Nat.add_mul_mod_self_left]
      | succ r =>
          have h2 : ((if w ≠ 0 then 1 else 0) + 2 * active_rows_val ws) / 2 =
              active_rows_val ws := by
            by_cases h : w = 0 <;> simp [h, Nat.add_mul_div_left]
          simp only [active_rows_val, Nat.testBit_succ, h2, ih r,
            List.getD_cons_succ, List.length_cons, Nat.add_lt_add_iff_right]

/-- The active-row vector is zero iff every row of the matrix is. -/
theorem active_rows_val_eq_zero (ws : List Nat) :
    active_rows_val ws = 0 ↔ ∀ w ∈ ws, w = 0 := by
  induction ws with
  | nil => simp [active_rows_val]
  | cons w ws ih =>
      simp only [active_rows_val, List.mem_cons]
      constructor
      · intro h
        have h1 : (if w ≠ 0 then 1 else 0) = 0 ∧ active_rows_val ws = 0 := by omega
        have hw : w = 0 := by
          by_contra hw
          simp [hw] at h1
        exact fun x hx => hx.elim (fun he => he ▸ hw) (fun hm => ih.mp h1.2 x hm)
      · intro h
        have hw : w = 0 := h w (Or.inl rfl)
        have : active_rows_val ws = 0 := ih.mpr (fun x hx => h x (Or.inr hx))
        simp [hw, this]

/-- A row kept by the mask is a member of the compacted row array. -/
theorem remove_rows_list_mem :
    ∀ (ws : List Nat) (mask r : Nat), r < ws.length → mask.testBit r = true →
      ws.getD r 0 ∈ remove_rows_list ws mask := by
  intro ws
  induction ws with
  | nil => intro mask r hr; simp at hr
  | cons w ws ih =>
      intro mask r hr hbit
      cases r with
      | zero =>
          rw [Nat.testBit_zero] at hbit
          simp only [remove_rows_list, List.getD_cons_zero, if_pos (of_decide_eq_true hbit)]
          exact List.mem_cons_self _ _
      | succ r =>
          rw [Nat.testBit_succ] at hbit
          have hmem := ih (mask / 2) r (by simpa using hr) hbit
          simp only [remove_rows_list, List.getD_cons_succ]
          by_cases h2 : mask % 2 = 1
          · rw [if_pos h2]; exact List.mem_cons_of_mem _ hmem
          · rw [if_neg h2]; exact hmem

/-- OR is monotone bitwise (left operand). -/
theorem testBit_or_left (a b r : Nat) (h : a.testBit r = true) :
    (a ||| b).testBit r = true := by
  rw [Nat.testBit_or, h, Bool.true_or]

/-- OR is monotone bitwise (right operand). -/
theorem testBit_or_right (a b r : Nat) (h : b.testBit r = true) :
    (a ||| b).testBit r = true := by
  rw [Nat.testBit_or, h, Bool.or_true]

/-- Every kept block's active rows are below the combined mask. -/
theorem or_actives_mono (bs : List (BM × BM)) (p : BM × BM) (hp : p ∈ bs) (r : Nat)
    (h : (get_active_rows_bm p.1).testBit r = true) :
    (or_actives bs).testBit r = true := by
  induction bs with
  | nil => cases hp
  | cons q bs ih =>
      rcases List.mem_cons.mp hp with hq | hmem
      · subst hq
        exact testBit_or_left _ _ _ h
      · exact testBit_or_right _ _ _ (ih hmem)

/-- Overwriting a row with `v` puts `v` among the rows. -/
theorem mem_set_of_lt {α : Type} (l : List α) (i : Nat) (v : α) (h : i < l.length) :
    v ∈ l.set i v := by
  rw [List.mem_iff_getElem]
  refine ⟨i, by simpa using h, ?_⟩
  simp [List.getElem_set]

/-- The column loop of `linear_substitution` preserves all shape
fields of both matrices of the block. -/
theorem subst_cols_shapes (c : Nat) (rhs : Bool) (p : Nat) :
    ∀ (cols : List Nat) (m s : BM) (cnt : Nat),
      shape_eq (subst_cols c rhs p cols (m, s, cnt)).1 m ∧
      shape_eq (subst_cols c rhs p cols (m, s, cnt)).2.1 s := by
  intro cols
  induction cols with
  | nil => intro m s cnt; exact ⟨⟨rfl, rfl, rfl⟩, ⟨rfl, rfl, rfl⟩⟩
  | cons col cols ih =>
      intro m s cnt
      by_cases hb : get_bit_bm m p col
      · have h := ih (add_column_bm m c col) (add_constant_bm s rhs col) (cnt + 1)
        simp only [subst_cols, if_pos hb]
        refine ⟨⟨h.1.1, h.1.2.1, ?_⟩, ⟨h.2.1, h.2.2.1, ?_⟩⟩
        · rw [h.1.2.2]
          exact add_column_rows_length col c m.rows
        · rw [h.2.2.2]
          exact List.length_map s.rows _
      · simpa only [subst_cols, if_neg hb] using ih m s cnt

/-- Bit-level description of the column loop, `M` side: for distinct
columns, exactly the listed columns whose pivot-row bit is set get the
vector `c` XORed in, and nothing else changes. -/
theorem subst_cols_M_bits (c : Nat) (rhs : Bool) (p : Nat) :
    ∀ (cols : List Nat), cols.Nodup → ∀ (m s : BM) (cnt r j : Nat),
      get_bit_bm (subst_cols c rhs p cols (m, s, cnt)).1 r j =
        Bool.xor (get_bit_bm m r j)
          (decide (j ∈ cols) && (get_bit_bm m p j &&
            (decide (r < m.rows.length) && c.testBit r))) := by
  intro cols
  induction cols with
  | nil => intro _ m s cnt r j; simp [subst_cols]
  | cons col cols ih =>
      intro hnd m s cnt r j
      obtain ⟨hcol, hnd'⟩ := List.nodup_cons.mp hnd
      by_cases hb : get_bit_bm m p col
      · simp only [subst_cols, if_pos hb]
        rw [ih hnd' (add_column_bm m c col) (add_constant_bm s rhs col) (cnt + 1) r j]
        have hlen : (add_column_bm m c col).rows.length = m.rows.length :=
          add_column_rows_length col c m.rows
        rw [hlen, get_bit_add_column, get_bit_add_column]
        by_cases hj : j = col
        · subst hj
          cases hx : get_bit_bm m r j <;>
            cases hy : decide (r < m.rows.length) <;>
              cases hz : c.testBit r <;> simp [hx, hy, hz, hb, hcol]
        · have hd : decide (j = col) = false := by simp [hj]
          simp only [hd, Bool.false_and, Bool.xor_false, List.mem_cons]
          have hm : decide (j = col ∨ j ∈ cols) = decide (j ∈ cols) := by
            simp [hj]
          rw [hm]
      · simp only [subst_cols, if_neg hb]
        rw [ih hnd' m s cnt r j]
        by_cases hj : j = col
        · subst hj
          rw [Bool.not_eq_true] at hb
          simp [hb, hcol]
        · have hm : decide (j ∈ col :: cols) = decide (j ∈ cols) := by
            simp [List.mem_cons, hj]
          rw [hm]

/-- Bit-level description of the column loop, `S` side: the columns of
`S` matching the substituted columns of `M` get the constant `rhs`
XORed into every row. -/
theorem subst_cols_S_bits (c : Nat) (rhs : Bool) (p : Nat) :
    ∀ (cols : List Nat), cols.Nodup → ∀ (m s : BM) (cnt r j : Nat),
      get_bit_bm (subst_cols c rhs p cols (m, s, cnt)).2.1 r j =
        Bool.xor (get_bit_bm s r j)
          (decide (j ∈ cols) && (get_bit_bm m p j &&
            (decide (r < s.rows.length) && rhs))) := by
  intro cols
  induction cols with
  | nil => intro _ m s cnt r j; simp [subst_cols]
  | cons col cols ih =>
      intro hnd m s cnt r j
      obtain ⟨hcol, hnd'⟩ := List.nodup_cons.mp hnd
      by_cases hb : get_bit_bm m p col
      · simp only [subst_cols, if_pos hb]
        rw [ih hnd' (add_column_bm m c col) (add_constant_bm s rhs col) (cnt + 1) r j]
        have hlen : (add_constant_bm s rhs col).rows.length = s.rows.length :=
          List.length_map s.rows _
        rw [hlen, get_bit_add_constant, get_bit_add_column]
        by_cases hj : j = col
        · subst hj
          cases hx : get_bit_bm s r j <;>
            cases hy : decide (r < s.rows.length) <;>
              cases hz : rhs <;> simp [hx, hy, hz, hb, hcol]
        · have hd : decide (j = col) = false := by simp [hj]
          simp only [hd, Bool.false_and, Bool.xor_false, List.mem_cons]
          have hm : decide (j = col ∨ j ∈ cols) = decide (j ∈ cols) := by
            simp [hj]
          rw [hm]
      · simp only [subst_cols, if_neg hb]
        rw [ih hnd' m s cnt r j]
        by_cases hj : j = col
        · subst hj
          rw [Bool.not_eq_true] at hb
          simp [hb, hcol]
        · have hm : decide (j ∈ col :: cols) = decide (j ∈ cols) := by
            simp [List.mem_cons, hj]
          rw [hm]

/-- The column loop counts exactly the listed columns whose pivot-row
bit is set. -/
theorem subst_cols_count (c : Nat) (rhs : Bool) (p : Nat) :
    ∀ (cols : List Nat), cols.Nodup → ∀ (m s : BM) (cnt : Nat),
      (subst_cols c rhs p cols (m, s, cnt)).2.2 =
        cnt + cols.countP (fun j => get_bit_bm m p j) := by
  intro cols
  induction cols with
  | nil => intro _ m s cnt; simp [subst_cols]
  | cons col cols ih =>
      intro hnd m s cnt
      obtain ⟨hcol, hnd'⟩ := List.nodup_cons.mp hnd
      by_cases hb : get_bit_bm m p col
      · simp only [subst_cols, if_pos hb]
        rw [ih hnd' (add_column_bm m c col) (add_constant_bm s rhs col) (cnt + 1)]
        have hc : cols.countP (fun j => get_bit_bm (add_column_bm m c col) p j) =
            cols.countP (fun j => get_bit_bm m p j) := by
          refine List.countP_congr (fun j hj => ?_)
          have hjc : j ≠ col := fun he => hcol (he ▸ hj)
          rw [get_bit_add_column]
          simp [hjc]
        rw [hc, List.countP_cons]
        simp only [hb, if_true]
        omega
      · simp only [subst_cols, if_neg hb]
        rw [ih hnd' m s cnt, List.countP_cons]
        rw [Bool.not_eq_true] at hb
        simp [hb]

/-- A zero column vector makes `linear_substitution` a no-op returning
count 0 (C's `pivot < 0` path). -/
theorem linear_substitution_zero_vec (sys : MRHS_system) (rhs : Bool) :
    linear_substitution sys 0 rhs = (sys, 0) := by
  unfold linear_substitution
  rw [find_nonzero_zero]

/-- Unfolding of `linear_substitution` on a nonzero column vector of a
system with non-null arrays: every block goes through its column loop
with the pivot at the lowest set bit of the vector. -/
theorem linear_substitution_of_ne (sys : MRHS_system) (bs : List (BM × BM))
    (c : Nat) (rhs : Bool) (h : sys.blocks = some bs) (hc : c ≠ 0) :
    linear_substitution sys c rhs =
      (⟨sys.nblocks, some (bs.map (fun pr =>
          ((subst_block pr c rhs (lowBit c)).1, (subst_block pr c rhs (lowBit c)).2.1)))⟩,
       (bs.map (fun pr => (subst_block pr c rhs (lowBit c)).2.2)).sum) := by
  unfold linear_substitution
  rw [find_nonzero_some c hc, h]

/-- Mapping commutes with in-range default reads. -/
theorem map_getD_lt {α β : Type} [Inhabited α] [Inhabited β]
    (l : List α) (f : α → β) (i : Nat) (h : i < l.length) :
    (l.map f).getD i default = f (l.getD i default) := by
  rw [List.getD_eq_getElem?_getD, List.getElem?_map, List.getD_eq_getElem?_getD,
    List.getElem?_eq_getElem h]
  rfl

/-- `linear_substitution` preserves the loop invariant of
`remove_linear`. -/
theorem linear_substitution_good (bs0 : List (BM × BM)) (nb : Nat)
    (s : MRHS_system) (c : Nat) (rhs : Bool) (hg : sys_good bs0 nb s) :
    sys_good bs0 nb (linear_substitution s c rhs).1 := by
  obtain ⟨cs, hcs, hlen, hnb, hsh⟩ := hg
  by_cases hc : c = 0
  · subst hc
    rw [linear_substitution_zero_vec]
    exact ⟨cs, hcs, hlen, hnb, hsh⟩
  · rw [linear_substitution_of_ne s cs c rhs hcs hc]
    refine ⟨_, rfl, by simpa using hlen, hnb, fun i hi => ?_⟩
    have hilt : i < cs.length := by omega
    rw [map_getD_lt cs _ i hilt]
    have hsub := subst_cols_shapes c rhs (lowBit c)
      (List.range (cs.getD i default).1.ncols)
      (cs.getD i default).1 (cs.getD i default).2 0
    have h1 := (hsh i hi).1
    have h2 := (hsh i hi).2
    unfold subst_block
    constructor
    · exact ⟨(hsub.1.1).trans h1.1, (hsub.1.2.1).trans h1.2.1,
        (hsub.1.2.2).trans h1.2.2⟩
    · exact ⟨(hsub.2.1).trans h2.1, (hsub.2.2.1).trans h2.2.1,
        (hsub.2.2.2).trans h2.2.2⟩

/-- `linear_substitution` never revives a zero column anywhere in the
system: a column whose bits are all clear stays clear, because its
pivot-row bit is clear. -/
theorem linear_substitution_zero_col (s : MRHS_system) (cs : List (BM × BM))
    (c : Nat) (rhs : Bool) (b j : Nat) (hcs : s.blocks = some cs)
    (hz : zero_col s b j) : zero_col (linear_substitution s c rhs).1 b j := by
  by_cases hc : c = 0
  · subst hc
    rw [linear_substitution_zero_vec]
    exact hz
  · rw [linear_substitution_of_ne s cs c rhs hcs hc]
    intro r
    unfold zero_col sys_M at hz
    rw [hcs] at hz
    unfold sys_M
    simp only [Option.getD_some]
    by_cases hb : b < cs.length
    · rw [map_getD_lt cs _ b hb]
      have hbits := subst_cols_M_bits c rhs (lowBit c)
        (List.range (cs.getD b default).1.ncols) (List.nodup_range _)
        (cs.getD b default).1 (cs.getD b default).2 0 r j
      unfold subst_block
      rw [hbits]
      have hzr : get_bit_bm (cs.getD b default).1 r j = false := hz r
      have hzp : get_bit_bm (cs.getD b default).1 (lowBit c) j = false := hz (lowBit c)
      rw [hzr, hzp]
      simp
    · rw [List.getD_eq_default _ _ (by rw [List.length_map]; omega)]
      exact get_bit_bm_oob _ r j (Nat.zero_le r)

/-- Substituting the column extracted from block `b` at `col` zeroes
that very column: the pivot-row bit of the column is 1, so the column
is XORed onto itself. -/
theorem linear_substitution_kill_col (s : MRHS_system) (cs : List (BM × BM))
    (rhs : Bool) (b col : Nat) (hcs : s.blocks = some cs) (hb : b < cs.length)
    (hcol : col < (cs.getD b default).1.ncols)
    (hc : get_column_bm (cs.getD b default).1 col ≠ 0) :
    zero_col (linear_substitution s (get_column_bm (cs.getD b default).1 col) rhs).1 b col := by
  set mb : BM := (cs.getD b default).1 with hmb
  set c : Nat := get_column_bm mb col with hcdef
  have hp : c.testBit (lowBit c) = true := lowBit_testBit c hc
  have hcbit : ∀ r, c.testBit r =
      if r < mb.rows.length then get_bit_bm mb r col else false := by
    intro r
    rw [hcdef]
    exact get_column_rows_testBit col mb.rows r
  have hplt : lowBit c < mb.rows.length := by
    by_contra hge
    rw [hcbit (lowBit c), if_neg hge] at hp
    exact Bool.false_ne_true hp
  have hpbit : get_bit_bm mb (lowBit c) col = true := by
    have := hcbit (lowBit c)
    rw [if_pos hplt] at this
    rw [← this]
    exact hp
  rw [linear_substitution_of_ne s cs c rhs hcs hc]
  intro r
  unfold sys_M
  simp only [Option.getD_some]
  rw [map_getD_lt cs _ b hb]
  have hbits := subst_cols_M_bits c rhs (lowBit c)
    (List.range mb.ncols) (List.nodup_range _) mb (cs.getD b default).2 0 r col
  unfold subst_block
  rw [← hmb, hbits, hpbit]
  have hmem : decide (col ∈ List.range mb.ncols) = true :=
    decide_eq_true (List.mem_range.mpr hcol)
  rw [hmem]
  by_cases hr : r < mb.rows.length
  · have hcr : c.testBit r = get_bit_bm mb r col := by
      rw [hcbit r, if_pos hr]
    rw [hcr]
    cases hx : get_bit_bm mb r col <;> simp [hx, hr]
  · have hor : get_bit_bm mb r col = false := get_bit_bm_oob _ r col (by omega)
    rw [hor]
    simp [hr]

/-- The `Sᵢ.nrows` read by the block loop of `remove_linear` agrees
with the original system while the invariant holds. -/
theorem sys_good_S_nrows (bs0 : List (BM × BM)) (nb : Nat) (s : MRHS_system)
    (hg : sys_good bs0 nb s) (b : Nat) (hb : b < bs0.length) :
    (sys_S s b).nrows = (bs0.getD b default).2.nrows := by
  obtain ⟨cs, hcs, hlen, _, hsh⟩ := hg
  unfold sys_S
  rw [hcs]
  exact ((hsh b hb).2).1

/-- The `Mᵢ.ncols` read by the block loop of `remove_linear` agrees
with the original system while the invariant holds. -/
theorem sys_good_M_ncols (bs0 : List (BM × BM)) (nb : Nat) (s : MRHS_system)
    (hg : sys_good bs0 nb s) (b : Nat) (hb : b < bs0.length) :
    (sys_M s b).ncols = (bs0.getD b default).1.ncols := by
  obtain ⟨cs, hcs, hlen, _, hsh⟩ := hg
  unfold sys_M
  rw [hcs]
  exact ((hsh b hb).1).2.1

/-- Column loop of `remove_linear` for block `b`: the invariant is
kept, zero columns anywhere stay zero, and every processed column of
block `b` ends up zero. -/
theorem remove_linear_inner (bs0 : List (BM × BM)) (nb b : Nat)
    (hb : b < bs0.length) :
    ∀ (cols : List Nat) (st : MRHS_system × Nat),
      sys_good bs0 nb st.1 →
      (∀ col ∈ cols, col < (bs0.getD b default).1.ncols) →
      sys_good bs0 nb ((cols.foldl (fun acc2 col =>
        let c := get_column_bm (sys_M acc2.1 b) col
        let rhs := get_bit_bm (sys_S acc2.1 b) 0 col
        let r := linear_substitution acc2.1 c rhs
        (r.1, acc2.2 + r.2)) st)).1 ∧
      (∀ b' j', zero_col st.1 b' j' →
        zero_col ((cols.foldl (fun acc2 col =>
          let c := get_column_bm (sys_M acc2.1 b) col
          let rhs := get_bit_bm (sys_S acc2.1 b) 0 col
          let r := linear_substitution acc2.1 c rhs
          (r.1, acc2.2 + r.2)) st)).1 b' j') ∧
      (∀ col ∈ cols, zero_col ((cols.foldl (fun acc2 col =>
        let c := get_column_bm (sys_M acc2.1 b) col
        let rhs := get_bit_bm (sys_S acc2.1 b) 0 col
        let r := linear_substitution acc2.1 c rhs
        (r.1, acc2.2 + r.2)) st)).1 b col) := by
  intro cols
  induction cols with
  | nil =>
      intro st hg _
      exact ⟨hg, fun b' j' hz => hz, fun col hcol => absurd hcol (List.not_mem_nil col)⟩
  | cons col cols ih =>
      intro st hg hcols
      obtain ⟨cs, hcs, hlen, hnb, hsh⟩ := hg
      have hgfull : sys_good bs0 nb st.1 := ⟨cs, hcs, hlen, hnb, hsh⟩
      set c : Nat := get_column_bm (sys_M st.1 b) col with hcdef
      set rhsv : Bool := get_bit_bm (sys_S st.1 b) 0 col with hrdef
      set st1 : MRHS_system × Nat :=
        (( linear_substitution st.1 c rhsv).1, st.2 + (linear_substitution st.1 c rhsv).2)
        with hst1
      have hblt : b < cs.length := by omega
      have hsysM : sys_M st.1 b = (cs.getD b default).1 := by
        unfold sys_M
        rw [hcs]
        rfl
      have hnc : (cs.getD b default).1.ncols = (bs0.getD b default).1.ncols :=
        ((hsh b hb).1).2.1
      have hg1 : sys_good bs0 nb st1.1 :=
        linear_substitution_good bs0 nb st.1 c rhsv hgfull
      have hpres1 : ∀ b' j', zero_col st.1 b' j' → zero_col st1.1 b' j' := by
        intro b' j' hz
        exact linear_substitution_zero_col st.1 cs c rhsv b' j' hcs hz
      have hkill : zero_col st1.1 b col := by
        by_cases hc0 : c = 0
        · have hz : zero_col st.1 b col := by
            intro r
            unfold get_bit_bm
            have := (get_column_rows_eq_zero col (sys_M st.1 b).rows).mp
              (by rw [hcdef] at hc0; exact hc0) r
            exact this
          exact hpres1 b col hz
        · have := linear_substitution_kill_col st.1 cs rhsv b col hcs hblt
            (by rw [hnc]; exact hcols col (List.mem_cons_self col cols))
            (by rw [← hsysM, ← hcdef]; exact hc0)
          rw [← hsysM, ← hcdef] at this
          exact this
      have hstep : (col :: cols).foldl (fun acc2 col =>
          let c := get_column_bm (sys_M acc2.1 b) col
          let rhs := get_bit_bm (sys_S acc2.1 b) 0 col
          let r := linear_substitution acc2.1 c rhs
          (r.1, acc2.2 + r.2)) st =
        cols.foldl (fun acc2 col =>
          let c := get_column_bm (sys_M acc2.1 b) col
          let rhs := get_bit_bm (sys_S acc2.1 b) 0 col
          let r := linear_substitution acc2.1 c rhs
          (r.1, acc2.2 + r.2)) st1 := by
        rfl
      have hrest := ih st1 hg1 (fun x hx => hcols x (List.mem_cons_of_mem col hx))
      rw [hstep]
      refine ⟨hrest.1, ?_, ?_⟩
      · intro b' j' hz
        exact hrest.2.1 b' j' (hpres1 b' j' hz)
      · intro x hx
        rcases List.mem_cons.mp hx with hxc | hxm
        · subst hxc
          exact hrest.2.1 b x hkill
        · exact hrest.2.2 x hxm

/-- Block loop of `remove_linear`: the invariant is kept, zero columns
stay zero, and after the loop every visited block with a single allowed
RHS has all its (original-width) columns zero. -/
theorem remove_linear_outer (bs0 : List (BM × BM)) (nb : Nat) :
    ∀ (L : List Nat), (∀ b ∈ L, b < bs0.length) →
    ∀ (st : MRHS_system × Nat), sys_good bs0 nb st.1 →
      sys_good bs0 nb (L.foldl (fun acc b =>
        if (sys_S acc.1 b).nrows = 1 then
          (List.range (sys_M acc.1 b).ncols).foldl (fun acc2 col =>
            let c := get_column_bm (sys_M acc2.1 b) col
            let rhs := get_bit_bm (sys_S acc2.1 b) 0 col
            let r := linear_substitution acc2.1 c rhs
            (r.1, acc2.2 + r.2)) acc
        else acc) st).1 ∧
      (∀ b' j', zero_col st.1 b' j' → zero_col (L.foldl (fun acc b =>
        if (sys_S acc.1 b).nrows = 1 then
          (List.range (sys_M acc.1 b).ncols).foldl (fun acc2 col =>
            let c := get_column_bm (sys_M acc2.1 b) col
            let rhs := get_bit_bm (sys_S acc2.1 b) 0 col
            let r := linear_substitution acc2.1 c rhs
            (r.1, acc2.2 + r.2)) acc
        else acc) st).1 b' j') ∧
      (∀ b ∈ L, (bs0.getD b default).2.nrows = 1 →
        ∀ j < (bs0.getD b default).1.ncols, zero_col (L.foldl (fun acc b =>
          if (sys_S acc.1 b).nrows = 1 then
            (List.range (sys_M acc.1 b).ncols).foldl (fun acc2 col =>
              let c := get_column_bm (sys_M acc2.1 b) col
              let rhs := get_bit_bm (sys_S acc2.1 b) 0 col
              let r := linear_substitution acc2.1 c rhs
              (r.1, acc2.2 + r.2)) acc
          else acc) st).1 b j) := by
  intro L
  induction L with
  | nil =>
      intro _ st hg
      exact ⟨hg, fun b' j' hz => hz, fun b hb => absurd hb (List.not_mem_nil b)⟩
  | cons b L ih =>
      intro hL st hg
      have hbL : b < bs0.length := hL b (List.mem_cons_self b L)
      by_cases hcond : (sys_S st.1 b).nrows = 1
      · have hnc := sys_good_M_ncols bs0 nb st.1 hg b hbL
        have hinner := remove_linear_inner bs0 nb b hbL
          (List.range (sys_M st.1 b).ncols) st hg
          (fun col hcol => by
            rw [← hnc]
            exact List.mem_range.mp hcol)
        obtain ⟨hg1, hpres1, hzero1⟩ := hinner
        have hrest := ih (fun x hx => hL x (List.mem_cons_of_mem b hx)) _ hg1
        obtain ⟨hg2, hpres2, hL2⟩ := hrest
        simp only [List.foldl_cons, if_pos hcond]
        refine ⟨hg2, ?_, ?_⟩
        · intro b' j' hz
          exact hpres2 b' j' (hpres1 b' j' hz)
        · intro x hx hk1 j hj
          rcases List.mem_cons.mp hx with hxb | hxm
          · subst hxb
            refine hpres2 x j (hzero1 j ?_)
            rw [List.mem_range, hnc]
            exact hj
          · exact hL2 x hxm hk1 j hj
      · have hrest := ih (fun x hx => hL x (List.mem_cons_of_mem b hx)) st hg
        obtain ⟨hg2, hpres2, hL2⟩ := hrest
        simp only [List.foldl_cons, if_neg hcond]
        refine ⟨hg2, hpres2, ?_⟩
        intro x hx hk1 j hj
        rcases List.mem_cons.mp hx with hxb | hxm
        · subst hxb
          have := sys_good_S_nrows bs0 nb st.1 hg x hbL
          rw [hk1] at this
          exact absurd this hcond
        · exact hL2 x hxm hk1 j hj

/-- Reading a zero column through the `sys_M` accessor of a system
with non-null arrays. -/
theorem zero_col_get_bit (s : MRHS_system) (cs : List (BM × BM)) (i j : Nat)
    (hcs : s.blocks = some cs) (hz : zero_col s i j) :
    ∀ r, get_bit_bm (cs.getD i default).1 r j = false := by
  intro r
  have hr := hz r
  unfold sys_M at hr
  rw [hcs] at hr
  exact hr

/-- C3: after `remove_linear`, `nblocks` is unchanged (no block is
deleted), every block keeps its shapes, and every block whose `Sᵢ` has
exactly one row has all columns of its `Mᵢ` equal to zero — so no
`kᵢ = 1` block contributes a nonzero column image anywhere in the
coefficient side. -/
theorem remove_linear_correct (sys : MRHS_system) (bs : List (BM × BM))
    (hb : sys.blocks = some bs) (hnb : sys.nblocks = bs.length) :
    (remove_linear sys).1.nblocks = sys.nblocks ∧
    ∃ cs, (remove_linear sys).1.blocks = some cs ∧ cs.length = bs.length ∧
      (∀ i < bs.length,
        shape_eq (cs.getD i default).1 (bs.getD i default).1 ∧
        shape_eq (cs.getD i default).2 (bs.getD i default).2) ∧
      (∀ i < bs.length, (cs.getD i default).2.nrows = 1 →
        ∀ j < (cs.getD i default).1.ncols, get_column_bm (cs.getD i default).1 j = 0) := by
  have hg0 : sys_good bs sys.nblocks (sys, 0).1 :=
    ⟨bs, hb, rfl, rfl, fun i _ => ⟨⟨rfl, rfl, rfl⟩, ⟨rfl, rfl, rfl⟩⟩⟩
  have houter := remove_linear_outer bs sys.nblocks (List.range sys.nblocks)
    (fun x hx => by rw [← hnb]; exact List.mem_range.mp hx) (sys, 0) hg0
  obtain ⟨hgf, _, hzf⟩ := houter
  obtain ⟨cs, hcs, hlen, hnbf, hsh⟩ := hgf
  unfold remove_linear
  refine ⟨hnbf, cs, hcs, hlen, hsh, ?_⟩
  intro i hi hk1 j hj
  have hk1' : (bs.getD i default).2.nrows = 1 := by
    rw [← ((hsh i hi).2).1]
    exact hk1
  have hj' : j < (bs.getD i default).1.ncols := by
    rw [← ((hsh i hi).1).2.1]
    exact hj
  have hz := hzf i (List.mem_range.mpr (by omega)) hk1' j hj'
  have hbits := zero_col_get_bit _ cs i j hcs hz
  exact (get_column_rows_eq_zero j (cs.getD i default).1.rows).mpr (fun r => hbits r)

/-- C2: `linear_substitution` with the zero column is a no-op
returning 0; with a nonzero column it takes `p` = the pivot row of `c`
(lowest set bit: set at `p`, clear below), XORs `c` into exactly those
columns of every `Mᵢ` whose bit at row `p` is 1, XORs `rhs` into the
matching columns of `Sᵢ`, leaves every other bit and all shapes
unchanged, and returns the number of substituted columns. -/
theorem linear_substitution_correct (sys : MRHS_system) (bs : List (BM × BM))
    (c : Nat) (rhs : Bool) (hb : sys.blocks = some bs) :
    (c = 0 → linear_substitution sys c rhs = (sys, 0)) ∧
    (c ≠ 0 →
      ∃ cs, (linear_substitution sys c rhs).1.blocks = some cs ∧
        (linear_substitution sys c rhs).1.nblocks = sys.nblocks ∧
        cs.length = bs.length ∧
        c.testBit (lowBit c) = true ∧ (∀ i < lowBit c, c.testBit i = false) ∧
        (∀ i < bs.length,
          shape_eq (cs.getD i default).1 (bs.getD i default).1 ∧
          shape_eq (cs.getD i default).2 (bs.getD i default).2 ∧
          (∀ r j, r < (bs.getD i default).1.rows.length →
            j < (bs.getD i default).1.ncols →
            get_bit_bm (cs.getD i default).1 r j =
              Bool.xor (get_bit_bm (bs.getD i default).1 r j)
                (get_bit_bm (bs.getD i default).1 (lowBit c) j && c.testBit r)) ∧
          (∀ r j, r < (bs.getD i default).2.rows.length →
            j < (bs.getD i default).1.ncols →
            get_bit_bm (cs.getD i default).2 r j =
              Bool.xor (get_bit_bm (bs.getD i default).2 r j)
                (get_bit_bm (bs.getD i default).1 (lowBit c) j && rhs))) ∧
        (linear_substitution sys c rhs).2 =
          (bs.map (fun pr => (List.range pr.1.ncols).countP
            (fun j => get_bit_bm pr.1 (lowBit c) j))).sum) := by
  constructor
  · intro hc
    subst hc
    exact linear_substitution_zero_vec sys rhs
  · intro hc
    rw [linear_substitution_of_ne sys bs c rhs hb hc]
    refine ⟨_, rfl, rfl, by simp, lowBit_testBit c hc, lowBit_min c, ?_, ?_⟩
    · intro i hi
      have hilt : i < bs.length := hi
      rw [map_getD_lt bs _ i hilt]
      have hshape := subst_cols_shapes c rhs (lowBit c)
        (List.range (bs.getD i default).1.ncols)
        (bs.getD i default).1 (bs.getD i default).2 0
      refine ⟨hshape.1, hshape.2, ?_, ?_⟩
      · intro r j hr hj
        have hbits := subst_cols_M_bits c rhs (lowBit c)
          (List.range (bs.getD i default).1.ncols) (List.nodup_range _)
          (bs.getD i default).1 (bs.getD i default).2 0 r j
        unfold subst_block
        rw [hbits]
        have hmem : decide (j ∈ List.range (bs.getD i default).1.ncols) = true :=
          decide_eq_true (List.mem_range.mpr hj)
        have hrd : decide (r < (bs.getD i default).1.rows.length) = true :=
          decide_eq_true hr
        rw [hmem, hrd]
        cases get_bit_bm (bs.getD i default).1 (lowBit c) j <;>
          cases c.testBit r <;> simp
      · intro r j hr hj
        have hbits := subst_cols_S_bits c rhs (lowBit c)
          (List.range (bs.getD i default).1.ncols) (List.nodup_range _)
          (bs.getD i default).1 (bs.getD i default).2 0 r j
        unfold subst_block
        rw [hbits]
        have hmem : decide (j ∈ List.range (bs.getD i default).1.ncols) = true :=
          decide_eq_true (List.mem_range.mpr hj)
        have hrd : decide (r < (bs.getD i default).2.rows.length) = true :=
          decide_eq_true hr
        rw [hmem, hrd]
        cases get_bit_bm (bs.getD i default).1 (lowBit c) j <;>
          cases rhs <;> simp
    · show (bs.map (fun pr => (subst_block pr c rhs (lowBit c)).2.2)).sum = _
      congr 1
      refine List.map_congr_left (fun pr _ => ?_)
      have := subst_cols_count c rhs (lowBit c)
        (List.range pr.1.ncols) (List.nodup_range _) pr.1 pr.2 0
      unfold subst_block
      rw [this, Nat.zero_add]

/-- Witness for C2 at a concrete one-block system and column. -/
theorem linear_substitution_correct_witness :
    ((1 : Nat) = 0 →
      linear_substitution ⟨1, some [(⟨2, 2, [1, 2]⟩, ⟨1, 2, [0]⟩)]⟩ 1 true =
        (⟨1, some [(⟨2, 2, [1, 2]⟩, ⟨1, 2, [0]⟩)]⟩, 0)) ∧
    ((1 : Nat) ≠ 0 →
      ∃ cs, (linear_substitution ⟨1, some [(⟨2, 2, [1, 2]⟩, ⟨1, 2, [0]⟩)]⟩ 1 true).1.blocks =
          some cs ∧
        (linear_substitution ⟨1, some [(⟨2, 2, [1, 2]⟩, ⟨1, 2, [0]⟩)]⟩ 1 true).1.nblocks =
          (⟨1, some [(⟨2, 2, [1, 2]⟩, ⟨1, 2, [0]⟩)]⟩ : MRHS_system).nblocks ∧
        cs.length = [((⟨2, 2, [1, 2]⟩ : BM), (⟨1, 2, [0]⟩ : BM))].length ∧
        (1 : Nat).testBit (lowBit 1) = true ∧
        (∀ i < lowBit 1, (1 : Nat).testBit i = false) ∧
        (∀ i < [((⟨2, 2, [1, 2]⟩ : BM), (⟨1, 2, [0]⟩ : BM))].length,
          shape_eq (cs.getD i default).1
            ([((⟨2, 2, [1, 2]⟩ : BM), (⟨1, 2, [0]⟩ : BM))].getD i default).1 ∧
          shape_eq (cs.getD i default).2
            ([((⟨2, 2, [1, 2]⟩ : BM), (⟨1, 2, [0]⟩ : BM))].getD i default).2 ∧
          (∀ r j, r < ([((⟨2, 2, [1, 2]⟩ : BM), (⟨1, 2, [0]⟩ : BM))].getD i default).1.rows.length →
            j < ([((⟨2, 2, [1, 2]⟩ : BM), (⟨1, 2, [0]⟩ : BM))].getD i default).1.ncols →
            get_bit_bm (cs.getD i default).1 r j =
              Bool.xor (get_bit_bm ([((⟨2, 2, [1, 2]⟩ : BM), (⟨1, 2, [0]⟩ : BM))].getD i default).1 r j)
                (get_bit_bm ([((⟨2, 2, [1, 2]⟩ : BM), (⟨1, 2, [0]⟩ : BM))].getD i default).1 (lowBit 1) j &&
                  (1 : Nat).testBit r)) ∧
          (∀ r j, r < ([((⟨2, 2, [1, 2]⟩ : BM), (⟨1, 2, [0]⟩ : BM))].getD i default).2.rows.length →
            j < ([((⟨2, 2, [1, 2]⟩ : BM), (⟨1, 2, [0]⟩ : BM))].getD i default).1.ncols →
            get_bit_bm (cs.getD i default).2 r j =
              Bool.xor (get_bit_bm ([((⟨2, 2, [1, 2]⟩ : BM), (⟨1, 2, [0]⟩ : BM))].getD i default).2 r j)
                (get_bit_bm ([((⟨2, 2, [1, 2]⟩ : BM), (⟨1, 2, [0]⟩ : BM))].getD i default).1 (lowBit 1) j &&
                  true))) ∧
        (linear_substitution ⟨1, some [(⟨2, 2, [1, 2]⟩, ⟨1, 2, [0]⟩)]⟩ 1 true).2 =
          ([((⟨2, 2, [1, 2]⟩ : BM), (⟨1, 2, [0]⟩ : BM))].map
            (fun pr => (List.range pr.1.ncols).countP
              (fun j => get_bit_bm pr.1 (lowBit 1) j))).sum) :=
  linear_substitution_correct ⟨1, some [(⟨2, 2, [1, 2]⟩, ⟨1, 2, [0]⟩)]⟩
    [((⟨2, 2, [1, 2]⟩ : BM), (⟨1, 2, [0]⟩ : BM))] 1 true rfl

/-- The block scan of `remove_empty` keeps exactly the blocks with an
active row and ORs all active-row vectors into the mask. -/
theorem remove_empty_loop_spec :
    ∀ (bs : List (BM × BM)) (mask : Nat),
      remove_empty_loop bs mask =
        (bs.filter (fun p => is_non_zero_bv (get_active_rows_bm p.1)),
         mask ||| or_actives bs) := by
  intro bs
  induction bs with
  | nil => intro mask; simp [remove_empty_loop, or_actives]
  | cons p bs ih =>
      intro mask
      by_cases h : is_non_zero_bv (get_active_rows_bm p.1)
      · simp only [remove_empty_loop, if_pos h, ih, or_actives]
        rw [show List.filter (fun q => is_non_zero_bv (get_active_rows_bm q.1)) (p :: bs) =
            p :: List.filter (fun q => is_non_zero_bv (get_active_rows_bm q.1)) bs from
          List.filter_cons_of_pos h, Nat.or_assoc]
      · have hz : get_active_rows_bm p.1 = 0 := by
          unfold is_non_zero_bv at h
          simpa using h
        simp only [remove_empty_loop, if_neg h, ih, or_actives]
        rw [show List.filter (fun q => is_non_zero_bv (get_active_rows_bm q.1)) (p :: bs) =
            List.filter (fun q => is_non_zero_bv (get_active_rows_bm q.1)) bs from
          List.filter_cons_of_neg (by simpa using h), hz, Nat.zero_or]

/-- Splitting a list's length by a predicate. -/
theorem filter_length_split {α : Type} (q : α → Bool) (l : List α) :
    (l.filter q).length + (l.filter (fun a => !(q a))).length = l.length := by
  induction l with
  | nil => rfl
  | cons a l ih =>
      by_cases h : q a
      · rw [List.filter_cons_of_pos h, List.filter_cons_of_neg (by simp [h])]
        simp only [List.length_cons]
        omega
      · rw [List.filter_cons_of_neg (by simpa using h),
          List.filter_cons_of_pos (by simp [h])]
        simp only [List.length_cons]
        omega

/-- Compacting to a mask that covers the block's own active rows keeps
the block nonempty. -/
theorem remove_rows_keeps_nonzero (m : BM) (mask : Nat)
    (hcov : ∀ r, (get_active_rows_bm m).testBit r = true → mask.testBit r = true)
    (hnz : get_active_rows_bm m ≠ 0) :
    get_active_rows_bm (remove_rows_bm m mask) ≠ 0 := by
  have hex : ∃ w ∈ m.rows, w ≠ 0 := by
    by_contra hall
    push_neg at hall
    exact hnz ((active_rows_val_eq_zero m.rows).mpr hall)
  obtain ⟨w, hwmem, hwne⟩ := hex
  obtain ⟨r, hr, hrw⟩ := List.getElem_of_mem hwmem
  have hgetD : m.rows.getD r 0 = w := by
    rw [List.getD_eq_getElem?_getD, List.getElem?_eq_getElem hr]
    exact hrw
  have hact : (get_active_rows_bm m).testBit r = true := by
    unfold get_active_rows_bm
    rw [active_rows_val_testBit m.rows r, if_pos hr, hgetD]
    exact decide_eq_true hwne
  have hmask := hcov r hact
  have hmem2 : w ∈ remove_rows_list m.rows mask := by
    have := remove_rows_list_mem m.rows mask r hr hmask
    rw [hgetD] at this
    exact this
  intro hzero
  have hall := (active_rows_val_eq_zero (remove_rows_list m.rows mask)).mp hzero
  exact hwne (hall w hmem2)

/-- C4: on a well-formed system, `remove_empty` drops exactly the
blocks whose `Mᵢ` is all-zero (order of the survivors preserved, their
`Sᵢ` untouched, their `Mᵢ` compacted to the union of active rows),
decrements `nblocks` by the number of dropped blocks and returns that
number, and leaves no surviving block with an all-zero `Mᵢ`; with
exactly one all-zero block, `nblocks` drops by exactly 1. -/
theorem remove_empty_correct (sys : MRHS_system) (bs : List (BM × BM))
    (hb : sys.blocks = some bs) (hnb : sys.nblocks = bs.length)
    (hne : 1 ≤ sys.nblocks) :
    ∃ sys' cnt, remove_empty sys = some (sys', cnt) ∧
      cnt = (bs.filter (fun p => !(is_non_zero_bv (get_active_rows_bm p.1)))).length ∧
      sys'.nblocks = sys.nblocks - cnt ∧
      sys'.blocks = some ((bs.filter (fun p => is_non_zero_bv (get_active_rows_bm p.1))).map
        (fun p => (remove_rows_bm p.1 (or_actives bs), p.2))) ∧
      (∀ q ∈ (bs.filter (fun p => is_non_zero_bv (get_active_rows_bm p.1))).map
          (fun p => (remove_rows_bm p.1 (or_actives bs), p.2)),
        get_active_rows_bm q.1 ≠ 0) ∧
      ((bs.filter (fun p => !(is_non_zero_bv (get_active_rows_bm p.1)))).length = 1 →
        sys.nblocks - sys'.nblocks = 1) := by
  have hsplit := filter_length_split (fun p => is_non_zero_bv (get_active_rows_bm p.1)) bs
  have hkle : (bs.filter (fun p => is_non_zero_bv (get_active_rows_bm p.1))).length ≤ bs.length :=
    List.length_filter_le _ bs
  unfold remove_empty
  rw [hb]
  simp only [remove_empty_loop_spec bs 0, Nat.zero_or]
  refine ⟨_, _, rfl, ?_, ?_, rfl, ?_, ?_⟩
  · omega
  · rfl
  · intro q hq
    obtain ⟨p, hpmem, hpq⟩ := List.mem_map.mp hq
    have hpbs : p ∈ bs := (List.mem_filter.mp hpmem).1
    have hpact : is_non_zero_bv (get_active_rows_bm p.1) = true :=
      (List.mem_filter.mp hpmem).2
    have hpnz : get_active_rows_bm p.1 ≠ 0 := by
      unfold is_non_zero_bv at hpact
      simpa using hpact
    rw [← hpq]
    exact remove_rows_keeps_nonzero p.1 (or_actives bs)
      (fun r hr => or_actives_mono bs p hpbs r hr) hpnz
  · intro h1
    simp only []
    omega

/-- Witness for C4 at a concrete system with one empty and one
nonempty block. -/
theorem remove_empty_correct_witness :
    ∃ sys' cnt,
      remove_empty ⟨2, some [(⟨1, 1, [0]⟩, ⟨1, 1, [0]⟩), (⟨1, 1, [1]⟩, ⟨1, 1, [1]⟩)]⟩ =
        some (sys', cnt) ∧
      cnt = ([((⟨1, 1, [0]⟩ : BM), (⟨1, 1, [0]⟩ : BM)), (⟨1, 1, [1]⟩, ⟨1, 1, [1]⟩)].filter
        (fun p => !(is_non_zero_bv (get_active_rows_bm p.1)))).length ∧
      sys'.nblocks = (⟨2, some [(⟨1, 1, [0]⟩, ⟨1, 1, [0]⟩), (⟨1, 1, [1]⟩, ⟨1, 1, [1]⟩)]⟩ :
        MRHS_system).nblocks - cnt ∧
      sys'.blocks = some (([((⟨1, 1, [0]⟩ : BM), (⟨1, 1, [0]⟩ : BM)),
          (⟨1, 1, [1]⟩, ⟨1, 1, [1]⟩)].filter
            (fun p => is_non_zero_bv (get_active_rows_bm p.1))).map
        (fun p => (remove_rows_bm p.1
          (or_actives [((⟨1, 1, [0]⟩ : BM), (⟨1, 1, [0]⟩ : BM)),
            (⟨1, 1, [1]⟩, ⟨1, 1, [1]⟩)]), p.2))) ∧
      (∀ q ∈ ([((⟨1, 1, [0]⟩ : BM), (⟨1, 1, [0]⟩ : BM)),
          (⟨1, 1, [1]⟩, ⟨1, 1, [1]⟩)].filter
            (fun p => is_non_zero_bv (get_active_rows_bm p.1))).map
          (fun p => (remove_rows_bm p.1
            (or_actives [((⟨1, 1, [0]⟩ : BM), (⟨1, 1, [0]⟩ : BM)),
              (⟨1, 1, [1]⟩, ⟨1, 1, [1]⟩)]), p.2)),
        get_active_rows_bm q.1 ≠ 0) ∧
      (([((⟨1, 1, [0]⟩ : BM), (⟨1, 1, [0]⟩ : BM)), (⟨1, 1, [1]⟩, ⟨1, 1, [1]⟩)].filter
          (fun p => !(is_non_zero_bv (get_active_rows_bm p.1)))).length = 1 →
        (⟨2, some [(⟨1, 1, [0]⟩, ⟨1, 1, [0]⟩), (⟨1, 1, [1]⟩, ⟨1, 1, [1]⟩)]⟩ :
          MRHS_system).nblocks - sys'.nblocks = 1) :=
  remove_empty_correct ⟨2, some [(⟨1, 1, [0]⟩, ⟨1, 1, [0]⟩), (⟨1, 1, [1]⟩, ⟨1, 1, [1]⟩)]⟩
    [(⟨1, 1, [0]⟩, ⟨1, 1, [0]⟩), (⟨1, 1, [1]⟩, ⟨1, 1, [1]⟩)] rfl rfl (by decide)

/-- C5: on the zero-block system built by `create_mrhs_variable`
(`nblocks = 0`, null `pM`/`pS`), the first statement of `remove_empty`
dereferences the null `pM` (`system->pM->nrows`, mrhs.c l. 474), marked
`none` in the embedding — the call is not the well-defined no-op the
spec promises. -/
theorem remove_empty_null_deref (n : Nat) (ls ks : List Nat) :
    remove_empty (create_mrhs_variable n 0 ls ks) = none := rfl

/-- After `ensure_block_in`, the requested value is a row of a matrix
that has at least one row. -/
theorem ensure_block_in_bm_mem (bm : BM) (v cho : Nat) (hrows : bm.rows ≠ [])
    (hlen : bm.rows.length = bm.nrows) : v ∈ (ensure_block_in_bm bm v cho).rows := by
  unfold ensure_block_in_bm
  by_cases hmem : v ∈ bm.rows
  · rw [if_pos hmem]
    exact hmem
  · rw [if_neg hmem]
    apply mem_set_of_lt
    have hpos : 0 < bm.nrows := by
      rw [← hlen]
      exact List.length_pos.mpr hrows
    rw [hlen]
    exact Nat.mod_lt cho hpos

/-- After the block loop of `ensure_random_solution`, the product of
the drawn vector with each `Mᵢ` is a row of the (possibly rewritten)
`Sᵢ`. -/
theorem ensure_loop_mem (sol : Nat) (choice : Nat → Nat) :
    ∀ (bs : List (BM × BM)) (i : Nat),
      (∀ p ∈ bs, p.2.rows ≠ [] ∧ p.2.rows.length = p.2.nrows) →
      ∀ q ∈ ensure_loop sol choice bs i, multiply_bv_x_bm sol q.1 ∈ q.2.rows := by
  intro bs
  induction bs with
  | nil => intro i _ q hq; cases hq
  | cons p bs ih =>
      intro i hk q hq
      rcases List.mem_cons.mp hq with hq1 | hq2
      · subst hq1
        have hp := hk p (List.mem_cons_self p bs)
        exact ensure_block_in_bm_mem p.2 (multiply_bv_x_bm sol p.1) (choice i) hp.1 hp.2
      · exact ih (i + 1) (fun x hx => hk x (List.mem_cons_of_mem p hx)) q hq2

/-- C1 (amended): on a well-formed system with at least one block in
which every `Sᵢ` has at least one row, after `ensure_random_solution`
there is a vector `x` — the drawn one — with `x·Mᵢ` among the rows of
`Sᵢ` for every block. -/
theorem ensure_random_solution_solvable (sys : MRHS_system) (bs : List (BM × BM))
    (sol : Nat) (choice : Nat → Nat) (hb : sys.blocks = some bs)
    (hn : 1 ≤ sys.nblocks)
    (hk : ∀ p ∈ bs, p.2.rows ≠ [] ∧ p.2.rows.length = p.2.nrows) :
    ∃ bs', (ensure_random_solution sol choice sys).blocks = some bs' ∧
      ∃ x : Nat, ∀ q ∈ bs', multiply_bv_x_bm x q.1 ∈ q.2.rows := by
  unfold ensure_random_solution
  rw [if_neg (by omega), hb]
  exact ⟨_, rfl, sol, ensure_loop_mem sol choice bs 0 hk⟩

/-- Witness for C1 (amended) at a concrete one-block system. -/
theorem ensure_random_solution_solvable_witness :
    ∃ bs', (ensure_random_solution 1 (fun _ => 0)
        ⟨1, some [(⟨1, 1, [1]⟩, ⟨1, 1, [0]⟩)]⟩).blocks = some bs' ∧
      ∃ x : Nat, ∀ q ∈ bs', multiply_bv_x_bm x q.1 ∈ q.2.rows :=
  ensure_random_solution_solvable ⟨1, some [(⟨1, 1, [1]⟩, ⟨1, 1, [0]⟩)]⟩
    [(⟨1, 1, [1]⟩, ⟨1, 1, [0]⟩)] 1 (fun _ => 0) rfl (by decide) (by decide)

/-- Counterexample to C1 as stated: a one-block system whose `Sᵢ` has
no rows.  `ensure_block_in` can only overwrite an existing row, so the
empty `Sᵢ` stays empty and no `x` can satisfy `x·M₀ ∈ rows(S₀)`. -/
theorem ensure_random_solution_counterexample :
    ¬ ∃ x : Nat, ∀ q ∈ ((ensure_random_solution 0 (fun _ => 0)
        ⟨1, some [(⟨1, 1, [0]⟩, ⟨0, 1, []⟩)]⟩).blocks.getD []),
      multiply_bv_x_bm x q.1 ∈ q.2.rows := by
  intro hex
  obtain ⟨x, h⟩ := hex
  have hq := h (⟨1, 1, [0]⟩, ⟨0, 1, []⟩) (by decide)
  exact absurd hq (List.not_mem_nil _)

/-- C6: whenever `l > nblocks`, `l < 0`, or `k + nblocks − l` differs
from the row count `pM[0].nrows`, both AND fillers return leaving every
`Mᵢ` and `Sᵢ` unchanged, for every PRNG oracle. -/
theorem fill_mrhs_and_guard (fA : Int → BM → BM) (fR : BM → BM) (fS : BM → BM)
    (fAS : Int → Int → BM → BM) (fS2 : BM → BM)
    (sys : MRHS_system) (k l d : Int) (b0 : BM × BM) (rest : List (BM × BM))
    (hb : sys.blocks = some (b0 :: rest))
    (hguard : l > (sys.nblocks : Int) ∨ l < 0 ∨
      k + (sys.nblocks : Int) - l ≠ (b0.1.nrows : Int)) :
    fill_mrhs_and fA fR fS sys k l = some sys ∧
    fill_mrhs_and_sparse fAS fS2 sys k l d = some sys := by
  by_cases h1 : l > (sys.nblocks : Int) ∨ l < 0
  · constructor
    · unfold fill_mrhs_and
      rw [if_pos h1]
    · unfold fill_mrhs_and_sparse
      rw [if_pos h1]
  · have h3 : k + (sys.nblocks : Int) - l ≠ (b0.1.nrows : Int) := by
      rcases hguard with hg | hg | hg
      · exact absurd (Or.inl hg) h1
      · exact absurd (Or.inr hg) h1
      · exact hg
    constructor
    · unfold fill_mrhs_and
      rw [if_neg h1, hb]
      simp only [List.head?_cons]
      rw [if_pos h3]
    · unfold fill_mrhs_and_sparse
      rw [if_neg h1, hb]
      simp only [List.head?_cons]
      rw [if_pos h3]

/-- Witness for C6 at a concrete system and out-of-range `l`. -/
theorem fill_mrhs_and_guard_witness :
    fill_mrhs_and (fun _ b => b) (fun b => b) (fun b => b)
      ⟨1, some [(⟨2, 1, [0, 0]⟩, ⟨1, 1, [0]⟩)]⟩ 0 5 =
      some ⟨1, some [(⟨2, 1, [0, 0]⟩, ⟨1, 1, [0]⟩)]⟩ ∧
    fill_mrhs_and_sparse (fun _ _ b => b) (fun b => b)
      ⟨1, some [(⟨2, 1, [0, 0]⟩, ⟨1, 1, [0]⟩)]⟩ 0 5 3 =
      some ⟨1, some [(⟨2, 1, [0, 0]⟩, ⟨1, 1, [0]⟩)]⟩ :=
  fill_mrhs_and_guard (fun _ b => b) (fun b => b) (fun b => b) (fun _ _ b => b)
    (fun b => b) ⟨1, some [(⟨2, 1, [0, 0]⟩, ⟨1, 1, [0]⟩)]⟩ 0 5 3
    (⟨2, 1, [0, 0]⟩, ⟨1, 1, [0]⟩) [] rfl (Or.inl (by decide))

/-- Reading the flattened per-block header pairs by index. -/
theorem header_pairs_getD :
    ∀ (bs : List (BM × BM)) (b : Nat), b < bs.length →
      (header_pairs bs).getD (2 * b) 0 = (bs.getD b default).2.ncols ∧
      (header_pairs bs).getD (2 * b + 1) 0 = (bs.getD b default).2.nrows := by
  intro bs
  induction bs with
  | nil => intro b hb; simp at hb
  | cons p bs ih =>
      intro b hb
      cases b with
      | zero => exact ⟨rfl, rfl⟩
      | succ b =>
          have h2 : 2 * (b + 1) = (2 * b + 1) + 1 := by ring
          rw [h2]
          simp only [header_pairs, List.getD_cons_succ, List.getD_cons_zero]
          exact ih b (by simpa using hb)

/-- C9 (amended): the reader consumes each block's header pair in the
same order the writer emits it — `Sᵢ.ncols` (the blocksize `lᵢ`) first,
`Sᵢ.nrows` (the rhs count `kᵢ`) second — so reading back a written
header reconstructs every block's shapes. -/
theorem read_write_header_consistent (sys : MRHS_system) (bs : List (BM × BM))
    (b0 : BM × BM) (rest : List (BM × BM)) (hb : sys.blocks = some bs)
    (hbs : bs = b0 :: rest) (hnb : sys.nblocks = bs.length) :
    ∃ toks, write_mrhs_header sys = some toks ∧
      toks = b0.1.nrows :: sys.nblocks :: header_pairs bs ∧
      ∃ cs, (read_mrhs_header toks).blocks = some cs ∧ cs.length = bs.length ∧
        ∀ i < bs.length,
          (cs.getD i default).1.nrows = b0.1.nrows ∧
          (cs.getD i default).1.ncols = (bs.getD i default).2.ncols ∧
          (cs.getD i default).2.ncols = (bs.getD i default).2.ncols ∧
          (cs.getD i default).2.nrows = (bs.getD i default).2.nrows := by
  have hlenpos : 0 < bs.length := by
    rw [hbs]
    exact Nat.succ_pos _
  have hnbne : sys.nblocks ≠ 0 := by omega
  refine ⟨b0.1.nrows :: sys.nblocks :: header_pairs bs, ?_, rfl, ?_⟩
  · unfold write_mrhs_header
    rw [if_neg hnbne, hb, hbs]
    simp only [List.head?_cons]
  · have hread : read_mrhs_header (b0.1.nrows :: sys.nblocks :: header_pairs bs) =
        create_mrhs_variable b0.1.nrows sys.nblocks
          ((List.range sys.nblocks).map (fun b => (header_pairs bs).getD (2 * b) 0))
          ((List.range sys.nblocks).map (fun b => (header_pairs bs).getD (2 * b + 1) 0)) :=
      rfl
    rw [hread]
    unfold create_mrhs_variable
    rw [if_neg hnbne]
    refine ⟨_, rfl, by simp [hnb], ?_⟩
    intro i hi
    have hilt : i < sys.nblocks := by omega
    rw [range_map_getD sys.nblocks i _ default hilt]
    rw [range_map_getD sys.nblocks i _ 0 hilt, range_map_getD sys.nblocks i _ 0 hilt]
    have hhp := header_pairs_getD bs i hi
    rw [hhp.1, hhp.2]
    exact ⟨rfl, rfl, rfl, rfl⟩

/-- Witness for C9 (amended) at a concrete one-block system. -/
theorem read_write_header_consistent_witness :
    ∃ toks, write_mrhs_header ⟨1, some [(⟨3, 2, [0, 0, 0]⟩, ⟨4, 2, [0, 0, 0, 0]⟩)]⟩ =
        some toks ∧
      toks = (⟨3, 2, [0, 0, 0]⟩ : BM).nrows ::
        (⟨1, some [(⟨3, 2, [0, 0, 0]⟩, ⟨4, 2, [0, 0, 0, 0]⟩)]⟩ : MRHS_system).nblocks ::
        header_pairs [(⟨3, 2, [0, 0, 0]⟩, ⟨4, 2, [0, 0, 0, 0]⟩)] ∧
      ∃ cs, (read_mrhs_header toks).blocks = some cs ∧
        cs.length = [((⟨3, 2, [0, 0, 0]⟩ : BM), (⟨4, 2, [0, 0, 0, 0]⟩ : BM))].length ∧
        ∀ i < [((⟨3, 2, [0, 0, 0]⟩ : BM), (⟨4, 2, [0, 0, 0, 0]⟩ : BM))].length,
          (cs.getD i default).1.nrows = (⟨3, 2, [0, 0, 0]⟩ : BM).nrows ∧
          (cs.getD i default).1.ncols =
            ([((⟨3, 2, [0, 0, 0]⟩ : BM), (⟨4, 2, [0, 0, 0, 0]⟩ : BM))].getD i default).2.ncols ∧
          (cs.getD i default).2.ncols =
            ([((⟨3, 2, [0, 0, 0]⟩ : BM), (⟨4, 2, [0, 0, 0, 0]⟩ : BM))].getD i default).2.ncols ∧
          (cs.getD i default).2.nrows =
            ([((⟨3, 2, [0, 0, 0]⟩ : BM), (⟨4, 2, [0, 0, 0, 0]⟩ : BM))].getD i default).2.nrows :=
  read_write_header_consistent ⟨1, some [(⟨3, 2, [0, 0, 0]⟩, ⟨4, 2, [0, 0, 0, 0]⟩)]⟩
    [(⟨3, 2, [0, 0, 0]⟩, ⟨4, 2, [0, 0, 0, 0]⟩)] (⟨3, 2, [0, 0, 0]⟩, ⟨4, 2, [0, 0, 0, 0]⟩)
    [] rfl rfl rfl

/-- Counterexample to C9 as stated: on the header stream
`[1, 1, 2, 5]` the source reader (first integer of the pair is the
blocksize `l`, mrhs.c ll. 204–205) builds a different system than the
claimed swapped order (`k` first) would. -/
theorem read_header_not_swapped :
    read_mrhs_header [1, 1, 2, 5] ≠ read_mrhs_header_swapped [1, 1, 2, 5] := by
  decide

/-- Witness for C3 at a concrete one-block linear system. -/
theorem remove_linear_correct_witness :
    (remove_linear ⟨1, some [(⟨1, 1, [1]⟩, ⟨1, 1, [1]⟩)]⟩).1.nblocks =
      (⟨1, some [(⟨1, 1, [1]⟩, ⟨1, 1, [1]⟩)]⟩ : MRHS_system).nblocks ∧
    ∃ cs, (remove_linear ⟨1, some [(⟨1, 1, [1]⟩, ⟨1, 1, [1]⟩)]⟩).1.blocks = some cs ∧
      cs.length = [((⟨1, 1, [1]⟩ : BM), (⟨1, 1, [1]⟩ : BM))].length ∧
      (∀ i < [((⟨1, 1, [1]⟩ : BM), (⟨1, 1, [1]⟩ : BM))].length,
        shape_eq (cs.getD i default).1
          ([((⟨1, 1, [1]⟩ : BM), (⟨1, 1, [1]⟩ : BM))].getD i default).1 ∧
        shape_eq (cs.getD i default).2
          ([((⟨1, 1, [1]⟩ : BM), (⟨1, 1, [1]⟩ : BM))].getD i default).2) ∧
      (∀ i < [((⟨1, 1, [1]⟩ : BM), (⟨1, 1, [1]⟩ : BM))].length,
        (cs.getD i default).2.nrows = 1 →
        ∀ j < (cs.getD i default).1.ncols,
          get_column_bm (cs.getD i default).1 j = 0) :=
  remove_linear_correct ⟨1, some [(⟨1, 1, [1]⟩, ⟨1, 1, [1]⟩)]⟩
    [(⟨1, 1, [1]⟩, ⟨1, 1, [1]⟩)] rfl rfl
